import Mathlib

/-!
Verification of the liquid-heck case-conversion filters.

The repository (src/src/lib.rs) registers eight Liquid filters; each filter
coerces its input value to a string with to_kstr and applies one of heck's
eight case conversions, always returning Ok(Value::scalar(..)).

The word-segmentation and case-rendering engine itself (the Segmenter and
Renderer of the specification) lives in the external heck crate, whose code
is not part of this repository; it is modelled here from the specification
(sections 4.1, 4.2 and the style table).  Strings are modelled as List Char;
the character classes Upper, Lower, Digit and the ASCII case maps are the
ones from Lean core (Char.isUpper, Char.isLower, Char.isDigit, Char.toLower,
Char.toUpper), matching the spec's ASCII-oriented conventions.
-/

/-! ## Segmenter, modelled from the spec (section 4.1) -/

namespace Heck

/-- Modelled from the spec: a Separator is any non-alphanumeric character
(space, underscore, hyphen, and other non-alphanumeric punctuation). -/
def isSeparator (c : Char) : Bool := !c.isAlphanum

/-- Modelled from the spec: within a separator-free run, a new word starts at
character c (with previous character prev and lookahead next) exactly when
rule 2 (a Lower to Upper transition starts a new word at the Upper) or rule 3
(in a run of Upper characters followed by a Lower, the last Upper starts a
new word) applies.  Digits are never boundaries (rule 4). -/
def camelBoundary (prev c : Char) (next : Option Char) : Bool :=
  c.isUpper &&
    (prev.isLower ||
      (prev.isUpper &&
        (match next with
         | some n => n.isLower
         | none => false)))

/-- Modelled from the spec: left-to-right scan of a separator-free run,
accumulating the current word cur (prev is the previously seen character);
a camelBoundary closes the current word and starts a new one. -/
def camelGo (cur : List Char) (prev : Char) : List Char → List (List Char)
  | [] => [cur]
  | c :: rest =>
    if camelBoundary prev c rest.head? then
      cur :: camelGo [c] c rest
    else
      camelGo (cur ++ [c]) c rest

/-- Modelled from the spec: split one separator-free run into words at the
camelCase and acronym boundaries (rules 2 and 3 of section 4.1). -/
def camelSplit : List Char → List (List Char)
  | [] => []
  | c :: rest => camelGo [c] c rest

/-- Modelled from the spec: split the input at Separator characters,
discarding the separators (rule 1), collapsing consecutive separators
(rule 5) and emitting no empty words for leading or trailing separators
(rule 6).  cur is the (in-order) run accumulated so far. -/
def sepRunsAux : List Char → List Char → List (List Char)
  | [], cur => if cur.isEmpty then [] else [cur]
  | c :: rest, cur =>
    if isSeparator c then
      if cur.isEmpty then sepRunsAux rest [] else cur :: sepRunsAux rest []
    else
      sepRunsAux rest (cur ++ [c])

/-- Modelled from the spec: the maximal separator-free runs of the input. -/
def sepRuns (s : List Char) : List (List Char) := sepRunsAux s []

/-- Modelled from the spec: segment(input) = the WordSequence obtained by
splitting at separators and then at case-transition boundaries. -/
def segment (s : List Char) : List (List Char) :=
  ((sepRuns s).map camelSplit).flatten

/-! ## Renderer, modelled from the spec (section 4.2) -/

/-- Modelled from the spec: the per-word case transforms of a
StyleDescriptor. -/
inductive WordCase where
  | unchanged
  | lowerAll
  | upperAll
  | capitalizeFirst
deriving DecidableEq

/-- Modelled from the spec: LowerAll lowercases all characters, UpperAll
uppercases all characters, CapitalizeFirst uppercases the first character
and lowercases the rest, Unchanged is the identity. -/
def applyCase : WordCase → List Char → List Char
  | .unchanged, w => w
  | .lowerAll, w => w.map Char.toLower
  | .upperAll, w => w.map Char.toUpper
  | .capitalizeFirst, [] => []
  | .capitalizeFirst, c :: rest => c.toUpper :: rest.map Char.toLower

/-- Modelled from the spec: a StyleDescriptor is a separator (a character or
empty), a word case, and an optional override for the first word. -/
structure StyleDescriptor where
  separator : List Char
  word_case : WordCase
  first_word_case : Option WordCase
deriving DecidableEq

/-- Modelled from the spec: render joins the transformed words with the
style's separator; the first word uses first_word_case when it is set, every
other word uses word_case. -/
def render (ws : List (List Char)) (st : StyleDescriptor) : List Char :=
  match ws with
  | [] => []
  | w :: rest =>
    applyCase (st.first_word_case.getD st.word_case) w ++
      ((rest.map (fun v => st.separator ++ applyCase st.word_case v)).flatten)

/-! ## The eight styles, modelled from the spec's style table -/

/-- Modelled from the spec: UpperCamelCase has empty separator and
CapitalizeFirst for every word. -/
def upperCamelStyle : StyleDescriptor := ⟨[], .capitalizeFirst, none⟩

/-- Modelled from the spec: LowerCamelCase is UpperCamelCase with a LowerAll
override on the first word. -/
def lowerCamelStyle : StyleDescriptor := ⟨[], .capitalizeFirst, some .lowerAll⟩

/-- Modelled from the spec: SnakeCase joins LowerAll words with an
underscore. -/
def snakeStyle : StyleDescriptor := ⟨['_'], .lowerAll, none⟩

/-- Modelled from the spec: KebabCase joins LowerAll words with a hyphen. -/
def kebabStyle : StyleDescriptor := ⟨['-'], .lowerAll, none⟩

/-- Modelled from the spec: ShoutySnakeCase joins UpperAll words with an
underscore. -/
def shoutySnakeStyle : StyleDescriptor := ⟨['_'], .upperAll, none⟩

/-- Modelled from the spec: ShoutyKebabCase joins UpperAll words with a
hyphen. -/
def shoutyKebabStyle : StyleDescriptor := ⟨['-'], .upperAll, none⟩

/-- Modelled from the spec: TitleCase joins CapitalizeFirst words with a
space. -/
def titleStyle : StyleDescriptor := ⟨[' '], .capitalizeFirst, none⟩

/-- Modelled from the spec: TrainCase joins CapitalizeFirst words with a
hyphen. -/
def trainStyle : StyleDescriptor := ⟨['-'], .capitalizeFirst, none⟩

/-! ## The eight conversions (heck's entry points, per the spec each one is
render after segment with its style) -/

/-- Modelled from the spec: UpperCamelCase conversion. -/
def to_upper_camel_case (s : List Char) : List Char := render (segment s) upperCamelStyle

/-- Modelled from the spec: lowerCamelCase conversion. -/
def to_lower_camel_case (s : List Char) : List Char := render (segment s) lowerCamelStyle

/-- Modelled from the spec: snake_case conversion. -/
def to_snake_case (s : List Char) : List Char := render (segment s) snakeStyle

/-- Modelled from the spec: kebab-case conversion. -/
def to_kebab_case (s : List Char) : List Char := render (segment s) kebabStyle

/-- Modelled from the spec: SHOUTY_SNAKE_CASE conversion. -/
def to_shouty_snake_case (s : List Char) : List Char := render (segment s) shoutySnakeStyle

/-- Modelled from the spec: SHOUTY-KEBAB-CASE conversion. -/
def to_shouty_kebab_case (s : List Char) : List Char := render (segment s) shoutyKebabStyle

/-- Modelled from the spec: Title Case conversion. -/
def to_title_case (s : List Char) : List Char := render (segment s) titleStyle

/-- Modelled from the spec: Train-Case conversion. -/
def to_train_case (s : List Char) : List Char := render (segment s) trainStyle

/-! ## Auxiliary observation functions used in the statements -/

/-- Join a list of words with a fixed separator string between consecutive
words (the shape the Renderer produces for styles with no first-word
override). -/
def joinSep (sep : List Char) : List (List Char) → List Char
  | [] => []
  | [w] => w
  | w :: ws => w ++ sep ++ joinSep sep ws

/-- Checks that no two adjacent characters of the list both equal sep. -/
def noAdjPair (sep : Char) : List Char → Bool
  | a :: b :: rest => (!(a == sep && b == sep)) && noAdjPair sep (b :: rest)
  | _ => true

/-- Checks that the list does not start with sep. -/
def headNotSep (sep : Char) : List Char → Bool
  | [] => true
  | a :: _ => a != sep

/-- Checks that the list does not end with sep. -/
def lastNotSep (sep : Char) : List Char → Bool
  | [] => true
  | [a] => a != sep
  | _ :: b :: rest => lastNotSep sep (b :: rest)

/-- An output has no stray separator characters: it does not start with sep,
does not end with sep, and never has two adjacent sep characters. -/
def noStray (sep : Char) (out : List Char) : Bool :=
  headNotSep sep out && lastNotSep sep out && noAdjPair sep out

end Heck

/-! ## The Liquid filter layer (embedded from src/src/lib.rs) -/

namespace Liquid

/-- Scalar values of the Liquid value model (string, integer, boolean). -/
inductive Scalar where
  | str (s : List Char)
  | int (n : Int)
  | boolean (b : Bool)
deriving DecidableEq

/-- Liquid values as seen by a filter: nil or a scalar. -/
inductive Value where
  | nil
  | scalar (s : Scalar)
deriving DecidableEq

/-- Modelled from the spec: to_kstr, the external collaborator's coercion of
a template value to its string rendering (liquid-core's ValueView::to_kstr):
nil renders as the empty string, strings render as themselves, integers in
decimal, booleans as true or false. -/
def to_kstr : Value → List Char
  | .nil => []
  | .scalar (.str s) => s
  | .scalar (.int n) => (toString n).toList
  | .scalar (.boolean true) => ['t', 'r', 'u', 'e']
  | .scalar (.boolean false) => ['f', 'a', 'l', 's', 'e']

end Liquid

/-- UpperCamelCaseFilter::evaluate from src/src/lib.rs: coerce the input to a
string, convert, wrap in Ok(Value::scalar(..)); the runtime argument is
ignored. -/
def UpperCamelCaseFilter.evaluate {ρ : Type} (input : Liquid.Value) ( _runtime : ρ) :
    Except String Liquid.Value :=
  Except.ok (Liquid.Value.scalar (Liquid.Scalar.str (Heck.to_upper_camel_case (Liquid.to_kstr input))))

/-- LowerCamelCaseFilter::evaluate from src/src/lib.rs. -/
def LowerCamelCaseFilter.evaluate {ρ : Type} (input : Liquid.Value) ( _runtime : ρ) :
    Except String Liquid.Value :=
  Except.ok (Liquid.Value.scalar (Liquid.Scalar.str (Heck.to_lower_camel_case (Liquid.to_kstr input))))

/-- SnakeCaseFilter::evaluate from src/src/lib.rs. -/
def SnakeCaseFilter.evaluate {ρ : Type} (input : Liquid.Value) ( _runtime : ρ) :
    Except String Liquid.Value :=
  Except.ok (Liquid.Value.scalar (Liquid.Scalar.str (Heck.to_snake_case (Liquid.to_kstr input))))

/-- KebabCaseFilter::evaluate from src/src/lib.rs. -/
def KebabCaseFilter.evaluate {ρ : Type} (input : Liquid.Value) ( _runtime : ρ) :
    Except String Liquid.Value :=
  Except.ok (Liquid.Value.scalar (Liquid.Scalar.str (Heck.to_kebab_case (Liquid.to_kstr input))))

/-- ShoutySnakeCaseFilter::evaluate from src/src/lib.rs. -/
def ShoutySnakeCaseFilter.evaluate {ρ : Type} (input : Liquid.Value) ( _runtime : ρ) :
    Except String Liquid.Value :=
  Except.ok (Liquid.Value.scalar (Liquid.Scalar.str (Heck.to_shouty_snake_case (Liquid.to_kstr input))))

/-- TitleCaseFilter::evaluate from src/src/lib.rs. -/
def TitleCaseFilter.evaluate {ρ : Type} (input : Liquid.Value) ( _runtime : ρ) :
    Except String Liquid.Value :=
  Except.ok (Liquid.Value.scalar (Liquid.Scalar.str (Heck.to_title_case (Liquid.to_kstr input))))

/-- ShoutyKebabCaseFilter::evaluate from src/src/lib.rs. -/
def ShoutyKebabCaseFilter.evaluate {ρ : Type} (input : Liquid.Value) ( _runtime : ρ) :
    Except String Liquid.Value :=
  Except.ok (Liquid.Value.scalar (Liquid.Scalar.str (Heck.to_shouty_kebab_case (Liquid.to_kstr input))))

/-- TrainCaseFilter::evaluate from src/src/lib.rs. -/
def TrainCaseFilter.evaluate {ρ : Type} (input : Liquid.Value) ( _runtime : ρ) :
    Except String Liquid.Value :=
  Except.ok (Liquid.Value.scalar (Liquid.Scalar.str (Heck.to_train_case (Liquid.to_kstr input))))

/-! ## Character-level lemmas -/

namespace Heck

theorem uint32_le_iff (a b : UInt32) : a ≤ b ↔ a.toNat ≤ b.toNat := by
  rw [UInt32.le_def, BitVec.le_def]; rfl

theorem char_toNat_ofNat_valid {n : Nat} (h : n.isValidChar) : (Char.ofNat n).toNat = n := by
  rw [Char.ofNat, dif_pos h]; rfl

theorem isUpper_iff (c : Char) : c.isUpper = true ↔ (65 ≤ c.toNat ∧ c.toNat ≤ 90) := by
  simp only [Char.isUpper, Bool.and_eq_true, decide_eq_true_eq, ge_iff_le, uint32_le_iff]
  exact Iff.rfl

theorem isLower_iff (c : Char) : c.isLower = true ↔ (97 ≤ c.toNat ∧ c.toNat ≤ 122) := by
  simp only [Char.isLower, Bool.and_eq_true, decide_eq_true_eq, ge_iff_le, uint32_le_iff]
  exact Iff.rfl

theorem isDigit_iff (c : Char) : c.isDigit = true ↔ (48 ≤ c.toNat ∧ c.toNat ≤ 57) := by
  simp only [Char.isDigit, Bool.and_eq_true, decide_eq_true_eq, ge_iff_le, uint32_le_iff]
  exact Iff.rfl

theorem not_isLower_of_isUpper {c : Char} (h : c.isUpper = true) : c.isLower = false := by
  rw [isUpper_iff] at h
  rw [Bool.eq_false_iff]
  intro hl
  rw [isLower_iff] at hl
  omega

theorem not_isDigit_of_isUpper {c : Char} (h : c.isUpper = true) : c.isDigit = false := by
  rw [isUpper_iff] at h
  rw [Bool.eq_false_iff]
  intro hd
  rw [isDigit_iff] at hd
  omega

theorem toLower_eq (c : Char) :
    Char.toLower c = if 65 ≤ c.toNat ∧ c.toNat ≤ 90 then Char.ofNat (c.toNat + 32) else c := by
  rfl

theorem toUpper_eq (c : Char) :
    Char.toUpper c = if 97 ≤ c.toNat ∧ c.toNat ≤ 122 then Char.ofNat (c.toNat - 32) else c := by
  rfl

theorem toNat_toLower (c : Char) :
    (Char.toLower c).toNat =
      if 65 ≤ c.toNat ∧ c.toNat ≤ 90 then c.toNat + 32 else c.toNat := by
  rw [toLower_eq]
  by_cases h : 65 ≤ c.toNat ∧ c.toNat ≤ 90
  · rw [if_pos h, if_pos h, char_toNat_ofNat_valid (Or.inl (by omega))]
  · rw [if_neg h, if_neg h]

theorem toNat_toUpper (c : Char) :
    (Char.toUpper c).toNat =
      if 97 ≤ c.toNat ∧ c.toNat ≤ 122 then c.toNat - 32 else c.toNat := by
  rw [toUpper_eq]
  by_cases h : 97 ≤ c.toNat ∧ c.toNat ≤ 122
  · rw [if_pos h, if_pos h, char_toNat_ofNat_valid (Or.inl (by omega))]
  · rw [if_neg h, if_neg h]

theorem isUpper_toLower (c : Char) : (Char.toLower c).isUpper = false := by
  rw [Bool.eq_false_iff]
  intro h
  rw [isUpper_iff, toNat_toLower] at h
  by_cases hc : 65 ≤ c.toNat ∧ c.toNat ≤ 90
  · rw [if_pos hc] at h; omega
  · rw [if_neg hc] at h; omega

theorem isLower_toUpper (c : Char) : (Char.toUpper c).isLower = false := by
  rw [Bool.eq_false_iff]
  intro h
  rw [isLower_iff, toNat_toUpper] at h
  by_cases hc : 97 ≤ c.toNat ∧ c.toNat ≤ 122
  · rw [if_pos hc] at h; omega
  · rw [if_neg hc] at h; omega

theorem toLower_toLower (c : Char) : Char.toLower (Char.toLower c) = Char.toLower c := by
  rw [toLower_eq (Char.toLower c), toNat_toLower]
  by_cases hc : 65 ≤ c.toNat ∧ c.toNat ≤ 90
  · rw [if_pos hc, if_neg (by omega)]
  · rw [if_neg hc, if_neg hc]

theorem toUpper_toUpper (c : Char) : Char.toUpper (Char.toUpper c) = Char.toUpper c := by
  rw [toUpper_eq (Char.toUpper c), toNat_toUpper]
  by_cases hc : 97 ≤ c.toNat ∧ c.toNat ≤ 122
  · rw [if_pos hc, if_neg (by omega)]
  · rw [if_neg hc, if_neg hc]

theorem isAlphanum_iff (c : Char) :
    c.isAlphanum = true ↔
      ((65 ≤ c.toNat ∧ c.toNat ≤ 90) ∨ (97 ≤ c.toNat ∧ c.toNat ≤ 122) ∨
        (48 ≤ c.toNat ∧ c.toNat ≤ 57)) := by
  simp only [Char.isAlphanum, Char.isAlpha, Bool.or_eq_true, isUpper_iff, isLower_iff,
    isDigit_iff]
  tauto

theorem isAlphanum_toLower (c : Char) : (Char.toLower c).isAlphanum = c.isAlphanum := by
  by_cases hc : 65 ≤ c.toNat ∧ c.toNat ≤ 90
  · have h1 : (Char.toLower c).isAlphanum = true := by
      rw [isAlphanum_iff, toNat_toLower, if_pos hc]; omega
    have h2 : c.isAlphanum = true := by rw [isAlphanum_iff]; omega
    rw [h1, h2]
  · have h : Char.toLower c = c := by rw [toLower_eq, if_neg hc]
    rw [h]

theorem isAlphanum_toUpper (c : Char) : (Char.toUpper c).isAlphanum = c.isAlphanum := by
  by_cases hc : 97 ≤ c.toNat ∧ c.toNat ≤ 122
  · have h1 : (Char.toUpper c).isAlphanum = true := by
      rw [isAlphanum_iff, toNat_toUpper, if_pos hc]; omega
    have h2 : c.isAlphanum = true := by rw [isAlphanum_iff]; omega
    rw [h1, h2]
  · have h : Char.toUpper c = c := by rw [toUpper_eq, if_neg hc]
    rw [h]

theorem isSeparator_toLower (c : Char) : isSeparator (Char.toLower c) = isSeparator c := by
  rw [isSeparator, isSeparator, isAlphanum_toLower]

theorem isSeparator_toUpper (c : Char) : isSeparator (Char.toUpper c) = isSeparator c := by
  rw [isSeparator, isSeparator, isAlphanum_toUpper]

end Heck

/-! ## Segmenter lemmas -/

namespace Heck

theorem camelBoundary_isUpper {prev c : Char} {next : Option Char}
    (h : camelBoundary prev c next = true) : c.isUpper = true := by
  rw [camelBoundary.eq_def, Bool.and_eq_true] at h
  exact h.1

theorem camelGo_flatten (l : List Char) :
    ∀ (cur : List Char) (prev : Char), (camelGo cur prev l).flatten = cur ++ l := by
  induction l with
  | nil => intro cur prev; simp [camelGo]
  | cons c rest ih =>
    intro cur prev
    rw [camelGo]
    by_cases h : camelBoundary prev c rest.head? = true
    · rw [if_pos h]
      simp only [List.flatten_cons, ih]
      simp
    · rw [if_neg h, ih]
      simp

theorem camelGo_head_start (l : List Char) :
    ∀ (c0 : Char) (cur : List Char) (prev : Char) (w : List Char),
      w ∈ camelGo (c0 :: cur) prev l →
      (∃ t, w = c0 :: t) ∨ (∃ c t, w = c :: t ∧ c.isUpper = true) := by
  induction l with
  | nil =>
    intro c0 cur prev w hw
    simp only [camelGo, List.mem_singleton] at hw
    exact Or.inl ⟨cur, hw⟩
  | cons c rest ih =>
    intro c0 cur prev w hw
    rw [camelGo] at hw
    by_cases h : camelBoundary prev c rest.head? = true
    · rw [if_pos h] at hw
      rcases List.mem_cons.mp hw with h1 | h2
      · exact Or.inl ⟨cur, h1⟩
      · rcases ih c [] c w h2 with ⟨t, ht⟩ | h3
        · exact Or.inr ⟨c, t, ht, camelBoundary_isUpper h⟩
        · exact Or.inr h3
    · rw [if_neg h] at hw
      have heq : (c0 :: cur) ++ [c] = c0 :: (cur ++ [c]) := rfl
      rw [heq] at hw
      exact ih c0 (cur ++ [c]) c w hw

theorem camelGo_tail_upper (l : List Char) :
    ∀ (cur : List Char) (prev : Char) (w : List Char),
      w ∈ (camelGo cur prev l).tail → ∃ c t, w = c :: t ∧ c.isUpper = true := by
  induction l with
  | nil => intro cur prev w hw; simp [camelGo] at hw
  | cons c rest ih =>
    intro cur prev w hw
    rw [camelGo] at hw
    by_cases h : camelBoundary prev c rest.head? = true
    · rw [if_pos h] at hw
      simp only [List.tail_cons] at hw
      rcases camelGo_head_start rest c [] c w hw with ⟨t, ht⟩ | h3
      · exact ⟨c, t, ht, camelBoundary_isUpper h⟩
      · exact h3
    · rw [if_neg h] at hw
      exact ih (cur ++ [c]) c w hw

theorem camelGo_chars (l : List Char) :
    ∀ (cur : List Char) (prev : Char) (w : List Char), w ∈ camelGo cur prev l →
      ∀ c ∈ w, c ∈ cur ∨ c ∈ l := by
  induction l with
  | nil =>
    intro cur prev w hw c hc
    simp only [camelGo, List.mem_singleton] at hw
    exact Or.inl (hw ▸ hc)
  | cons c rest ih =>
    intro cur prev w hw x hx
    rw [camelGo] at hw
    by_cases h : camelBoundary prev c rest.head? = true
    · rw [if_pos h] at hw
      rcases List.mem_cons.mp hw with h1 | h2
      · exact Or.inl (h1 ▸ hx)
      · rcases ih [c] c w h2 x hx with h3 | h4
        · simp only [List.mem_singleton] at h3
          exact Or.inr (h3 ▸ List.mem_cons_self c rest)
        · exact Or.inr (List.mem_cons_of_mem c h4)
    · rw [if_neg h] at hw
      rcases ih (cur ++ [c]) c w hw x hx with h3 | h4
      · rcases List.mem_append.mp h3 with h5 | h6
        · exact Or.inl h5
        · simp only [List.mem_singleton] at h6
          exact Or.inr (h6 ▸ List.mem_cons_self c rest)
      · exact Or.inr (List.mem_cons_of_mem c h4)

theorem camelGo_single_noUpper (l : List Char) :
    ∀ (cur : List Char) (prev : Char), (∀ c ∈ l, c.isUpper = false) →
      camelGo cur prev l = [cur ++ l] := by
  induction l with
  | nil => intro cur prev _; simp [camelGo]
  | cons c rest ih =>
    intro cur prev hl
    rw [camelGo]
    have hb : camelBoundary prev c rest.head? = false := by
      rw [camelBoundary.eq_def, hl c (List.mem_cons_self c rest)]
      rfl
    rw [if_neg (by rw [hb]; exact Bool.false_ne_true)]
    rw [ih (cur ++ [c]) c (fun x hx => hl x (List.mem_cons_of_mem c hx))]
    simp

theorem camelGo_single_noLower (l : List Char) :
    ∀ (cur : List Char) (prev : Char), prev.isLower = false →
      (∀ c ∈ l, c.isLower = false) → camelGo cur prev l = [cur ++ l] := by
  induction l with
  | nil => intro cur prev _ _; simp [camelGo]
  | cons c rest ih =>
    intro cur prev hprev hl
    rw [camelGo]
    have hb : camelBoundary prev c rest.head? = false := by
      cases rest with
      | nil => simp [camelBoundary, hprev]
      | cons n r =>
        have hn : n.isLower = false := hl n (List.mem_cons_of_mem c (List.mem_cons_self n r))
        simp [camelBoundary, hprev, hn]
    rw [if_neg (by rw [hb]; exact Bool.false_ne_true)]
    rw [ih (cur ++ [c]) c (hl c (List.mem_cons_self c rest))
      (fun x hx => hl x (List.mem_cons_of_mem c hx))]
    simp

end Heck

namespace Heck

theorem camelSplit_flatten (r : List Char) : (camelSplit r).flatten = r := by
  cases r with
  | nil => rfl
  | cons c rest => rw [camelSplit, camelGo_flatten]; rfl

theorem camelSplit_words {r : List Char} (w : List Char) (hw : w ∈ camelSplit r) :
    (∃ c t, w = c :: t) ∧ ∀ c ∈ w, c ∈ r := by
  cases r with
  | nil => simp [camelSplit] at hw
  | cons c rest =>
    rw [camelSplit] at hw
    constructor
    · rcases camelGo_head_start rest c [] c w hw with ⟨t, ht⟩ | ⟨x, t, ht, _⟩
      · exact ⟨c, t, ht⟩
      · exact ⟨x, t, ht⟩
    · intro x hx
      rcases camelGo_chars rest [c] c w hw x hx with h1 | h2
      · simp only [List.mem_singleton] at h1
        exact h1 ▸ List.mem_cons_self c rest
      · exact List.mem_cons_of_mem c h2

theorem camelSplit_single_noUpper {c : Char} {t : List Char}
    (ht : ∀ x ∈ t, x.isUpper = false) : camelSplit (c :: t) = [c :: t] := by
  rw [camelSplit, camelGo_single_noUpper t [c] c ht]
  rfl

theorem camelSplit_single_noLower {w : List Char} (hne : w ≠ [])
    (hl : ∀ x ∈ w, x.isLower = false) : camelSplit w = [w] := by
  cases w with
  | nil => exact absurd rfl hne
  | cons c t =>
    rw [camelSplit, camelGo_single_noLower t [c] c (hl c (List.mem_cons_self c t))
      (fun x hx => hl x (List.mem_cons_of_mem c hx))]
    rfl

theorem sepRunsAux_append (w : List Char) :
    ∀ (l cur : List Char), (∀ c ∈ w, isSeparator c = false) →
      sepRunsAux (w ++ l) cur = sepRunsAux l (cur ++ w) := by
  induction w with
  | nil => intro l cur _; simp
  | cons c w ih =>
    intro l cur hw
    have hc : isSeparator c = false := hw c (List.mem_cons_self c w)
    rw [List.cons_append, sepRunsAux]
    rw [if_neg (by rw [hc]; exact Bool.false_ne_true)]
    rw [ih l (cur ++ [c]) (fun x hx => hw x (List.mem_cons_of_mem c hx))]
    simp

theorem sepRunsAux_words (l : List Char) :
    ∀ (cur : List Char), (∀ c ∈ cur, isSeparator c = false) →
      ∀ w ∈ sepRunsAux l cur, w ≠ [] ∧ ∀ c ∈ w, isSeparator c = false := by
  induction l with
  | nil =>
    intro cur hcur w hw
    rw [sepRunsAux] at hw
    by_cases h : cur.isEmpty = true
    · rw [if_pos h] at hw; simp at hw
    · rw [if_neg h] at hw
      simp only [List.mem_singleton] at hw
      subst hw
      refine ⟨?_, hcur⟩
      intro hnil
      exact h (by rw [hnil]; rfl)
  | cons c rest ih =>
    intro cur hcur w hw
    rw [sepRunsAux] at hw
    by_cases hs : isSeparator c = true
    · rw [if_pos hs] at hw
      by_cases h : cur.isEmpty = true
      · rw [if_pos h] at hw
        exact ih [] (by simp) w hw
      · rw [if_neg h] at hw
        rcases List.mem_cons.mp hw with h1 | h2
        · subst h1
          refine ⟨?_, hcur⟩
          intro hnil
          exact h (by rw [hnil]; rfl)
        · exact ih [] (by simp) w h2
    · rw [if_neg hs] at hw
      refine ih (cur ++ [c]) ?_ w hw
      intro x hx
      rcases List.mem_append.mp hx with h1 | h2
      · exact hcur x h1
      · simp only [List.mem_singleton] at h2
        subst h2
        exact Bool.eq_false_iff.mpr hs

theorem sepRunsAux_flatten (l : List Char) :
    ∀ cur : List Char,
      (sepRunsAux l cur).flatten = cur ++ l.filter (fun c => !isSeparator c) := by
  induction l with
  | nil =>
    intro cur
    rw [sepRunsAux]
    by_cases h : cur.isEmpty = true
    · rw [if_pos h]
      simp [List.isEmpty_iff.mp h]
    · rw [if_neg h]
      simp
  | cons c rest ih =>
    intro cur
    rw [sepRunsAux]
    by_cases hs : isSeparator c = true
    · have hfil : (c :: rest).filter (fun x => !isSeparator x) =
          rest.filter (fun x => !isSeparator x) := by
        simp [List.filter_cons, hs]
      by_cases h : cur.isEmpty = true
      · rw [if_pos hs, if_pos h, ih, hfil]
        simp [List.isEmpty_iff.mp h]
      · rw [if_pos hs, if_neg h]
        simp only [List.flatten_cons]
        rw [ih, hfil]
        simp
    · have hs' : isSeparator c = false := Bool.eq_false_iff.mpr hs
      have hfil : (c :: rest).filter (fun x => !isSeparator x) =
          c :: rest.filter (fun x => !isSeparator x) := by
        simp [List.filter_cons, hs']
      rw [if_neg hs, ih, hfil]
      simp

theorem sepRuns_words {s : List Char} (w : List Char) (hw : w ∈ sepRuns s) :
    w ≠ [] ∧ ∀ c ∈ w, isSeparator c = false := by
  exact sepRunsAux_words s [] (by simp) w hw

theorem sepRuns_flatten (s : List Char) :
    (sepRuns s).flatten = s.filter (fun c => !isSeparator c) := by
  rw [sepRuns, sepRunsAux_flatten]
  simp

end Heck

namespace Heck

theorem flatten_map_camelSplit (rs : List (List Char)) :
    ((rs.map camelSplit).flatten).flatten = rs.flatten := by
  induction rs with
  | nil => rfl
  | cons r rs ih =>
    simp only [List.map_cons, List.flatten_cons, List.flatten_append, camelSplit_flatten, ih]

theorem segment_flatten (s : List Char) :
    (segment s).flatten = s.filter (fun c => !isSeparator c) := by
  rw [segment, flatten_map_camelSplit, sepRuns_flatten]

theorem segment_words {s : List Char} (w : List Char) (hw : w ∈ segment s) :
    (∃ c t, w = c :: t) ∧ ∀ c ∈ w, isSeparator c = false := by
  rw [segment] at hw
  rcases List.mem_flatten.mp hw with ⟨ws, hws, hwmem⟩
  rcases List.mem_map.mp hws with ⟨r, hr, rfl⟩
  have hrw := sepRuns_words r hr
  have hcw := camelSplit_words w hwmem
  exact ⟨hcw.1, fun c hc => hrw.2 c (hcw.2 c hc)⟩

theorem render_eq_joinSep (st : StyleDescriptor) (h : st.first_word_case = none) :
    ∀ ws, render ws st = joinSep st.separator (ws.map (applyCase st.word_case)) := by
  intro ws
  cases ws with
  | nil => rfl
  | cons w rest =>
    induction rest generalizing w with
    | nil =>
      rw [render, h]
      simp [joinSep]
    | cons v vs ih =>
      rw [render, h]
      have hv := ih v
      rw [render, h] at hv
      simp only [Option.getD_none] at hv ⊢
      simp only [List.map_cons, List.flatten_cons] at hv ⊢
      rw [joinSep]
      rw [← hv]
      · simp [List.append_assoc]
      · simp

theorem applyCase_ne_nil (k : WordCase) {w : List Char} (h : w ≠ []) : applyCase k w ≠ [] := by
  cases k <;> cases w <;> simp_all [applyCase]

theorem applyCase_sepFree (k : WordCase) {w : List Char}
    (h : ∀ c ∈ w, isSeparator c = false) : ∀ c ∈ applyCase k w, isSeparator c = false := by
  cases k with
  | unchanged => exact h
  | lowerAll =>
    intro c hc
    rcases List.mem_map.mp hc with ⟨x, hx, rfl⟩
    rw [isSeparator_toLower]
    exact h x hx
  | upperAll =>
    intro c hc
    rcases List.mem_map.mp hc with ⟨x, hx, rfl⟩
    rw [isSeparator_toUpper]
    exact h x hx
  | capitalizeFirst =>
    cases w with
    | nil => intro c hc; simp [applyCase] at hc
    | cons a t =>
      intro c hc
      rw [applyCase] at hc
      rcases List.mem_cons.mp hc with h1 | h2
      · subst h1
        rw [isSeparator_toUpper]
        exact h a (List.mem_cons_self a t)
      · rcases List.mem_map.mp h2 with ⟨x, hx, rfl⟩
        rw [isSeparator_toLower]
        exact h x (List.mem_cons_of_mem a hx)

theorem applyCase_idem (k : WordCase) (w : List Char) :
    applyCase k (applyCase k w) = applyCase k w := by
  cases k with
  | unchanged => rfl
  | lowerAll =>
    simp only [applyCase, List.map_map]
    exact List.map_congr_left (fun x _ => toLower_toLower x)
  | upperAll =>
    simp only [applyCase, List.map_map]
    exact List.map_congr_left (fun x _ => toUpper_toUpper x)
  | capitalizeFirst =>
    cases w with
    | nil => rfl
    | cons a t =>
      simp only [applyCase, List.map_map, toUpper_toUpper]
      congr 1
      refine List.map_congr_left ?_
      intro x _
      exact toLower_toLower x

theorem camelSplit_applyCase_single (k : WordCase) {w : List Char} (hne : w ≠ [])
    (hw : k = WordCase.lowerAll ∨ k = WordCase.upperAll ∨ k = WordCase.capitalizeFirst) :
    camelSplit (applyCase k w) = [applyCase k w] := by
  cases w with
  | nil => exact absurd rfl hne
  | cons a t =>
    rcases hw with rfl | rfl | rfl
    · rw [applyCase]
      rw [List.map_cons]
      refine camelSplit_single_noUpper ?_
      intro x hx
      rcases List.mem_map.mp hx with ⟨y, _, rfl⟩
      exact isUpper_toLower y
    · refine camelSplit_single_noLower (applyCase_ne_nil _ hne) ?_
      intro x hx
      rcases List.mem_map.mp hx with ⟨y, _, rfl⟩
      exact isLower_toUpper y
    · rw [applyCase]
      refine camelSplit_single_noUpper ?_
      intro x hx
      rcases List.mem_map.mp hx with ⟨y, _, rfl⟩
      exact isUpper_toLower y

end Heck

namespace Heck

theorem joinSep_cons_cons (sep : List Char) (w v : List Char) (vs : List (List Char)) :
    joinSep sep (w :: v :: vs) = w ++ sep ++ joinSep sep (v :: vs) := by
  rfl

theorem sepRuns_joinSep {sc : Char} (hsc : isSeparator sc = true) :
    ∀ ws : List (List Char),
      (∀ w ∈ ws, w ≠ [] ∧ ∀ c ∈ w, isSeparator c = false) →
      sepRuns (joinSep [sc] ws) = ws := by
  intro ws
  induction ws with
  | nil => intro _; rfl
  | cons w ws ih =>
    intro hws
    have hw := hws w (List.mem_cons_self w ws)
    have hwe : w.isEmpty = false := by
      cases w with
      | nil => exact absurd rfl hw.1
      | cons a t => rfl
    cases ws with
    | nil =>
      show sepRunsAux w [] = [w]
      have : sepRunsAux (w ++ []) [] = sepRunsAux [] ([] ++ w) :=
        sepRunsAux_append w [] [] hw.2
      simp only [List.append_nil, List.nil_append] at this
      rw [this, sepRunsAux, hwe]
      rfl
    | cons v vs =>
      rw [joinSep_cons_cons, sepRuns, List.append_assoc,
        sepRunsAux_append w ([sc] ++ joinSep [sc] (v :: vs)) [] hw.2]
      simp only [List.nil_append, List.singleton_append]
      rw [sepRunsAux, if_pos hsc, hwe]
      simp only [Bool.false_eq_true, if_false]
      rw [show sepRunsAux (joinSep [sc] (v :: vs)) [] = sepRuns (joinSep [sc] (v :: vs)) from rfl]
      rw [ih (fun x hx => hws x (List.mem_cons_of_mem w hx))]

theorem flatten_map_singleton (ws : List (List Char))
    (h : ∀ w ∈ ws, camelSplit w = [w]) : (ws.map camelSplit).flatten = ws := by
  induction ws with
  | nil => rfl
  | cons w ws ih =>
    simp only [List.map_cons, List.flatten_cons]
    rw [h w (List.mem_cons_self w ws), ih (fun x hx => h x (List.mem_cons_of_mem w hx))]
    rfl

theorem segment_joinSep {sc : Char} (hsc : isSeparator sc = true)
    {ws : List (List Char)}
    (hws : ∀ w ∈ ws, w ≠ [] ∧ ∀ c ∈ w, isSeparator c = false)
    (hsingle : ∀ w ∈ ws, camelSplit w = [w]) :
    segment (joinSep [sc] ws) = ws := by
  rw [segment, sepRuns_joinSep hsc ws hws, flatten_map_singleton ws hsingle]

theorem convert_idem (st : StyleDescriptor) (sc : Char)
    (hsep : st.separator = [sc]) (hsc : isSeparator sc = true)
    (hfirst : st.first_word_case = none)
    (hcase : st.word_case = WordCase.lowerAll ∨ st.word_case = WordCase.upperAll ∨
      st.word_case = WordCase.capitalizeFirst) :
    ∀ s, render (segment (render (segment s) st)) st = render (segment s) st := by
  intro s
  have h1 : render (segment s) st =
      joinSep [sc] ((segment s).map (applyCase st.word_case)) := by
    rw [render_eq_joinSep st hfirst, hsep]
  have hws : ∀ w ∈ (segment s).map (applyCase st.word_case),
      w ≠ [] ∧ ∀ c ∈ w, isSeparator c = false := by
    intro w hw
    rcases List.mem_map.mp hw with ⟨v, hv, rfl⟩
    have hvw := segment_words v hv
    have hvne : v ≠ [] := by
      rcases hvw.1 with ⟨c, t, rfl⟩
      exact List.cons_ne_nil c t
    exact ⟨applyCase_ne_nil _ hvne, applyCase_sepFree _ hvw.2⟩
  have hsingle : ∀ w ∈ (segment s).map (applyCase st.word_case), camelSplit w = [w] := by
    intro w hw
    rcases List.mem_map.mp hw with ⟨v, hv, rfl⟩
    have hvne : v ≠ [] := by
      rcases (segment_words v hv).1 with ⟨c, t, rfl⟩
      exact List.cons_ne_nil c t
    exact camelSplit_applyCase_single st.word_case hvne hcase
  have h2 : segment (render (segment s) st) = (segment s).map (applyCase st.word_case) := by
    rw [h1]
    exact segment_joinSep hsc hws hsingle
  rw [h2, render_eq_joinSep st hfirst, hsep, h1, List.map_map]
  have hmap : (segment s).map (applyCase st.word_case ∘ applyCase st.word_case) =
      (segment s).map (applyCase st.word_case) := by
    refine List.map_congr_left ?_
    intro w _
    exact applyCase_idem st.word_case w
  rw [hmap]

end Heck

namespace Heck

theorem noAdjPair_append (sep : Char) (w : List Char)
    (hw : ∀ c ∈ w, (c == sep) = false) :
    ∀ l : List Char, noAdjPair sep (w ++ l) = noAdjPair sep l := by
  induction w with
  | nil => intro l; rfl
  | cons a w ih =>
    intro l
    have ha : (a == sep) = false := hw a (List.mem_cons_self a w)
    have hw' : ∀ c ∈ w, (c == sep) = false := fun c hc => hw c (List.mem_cons_of_mem a hc)
    cases hwl : w ++ l with
    | nil =>
      rcases List.append_eq_nil.mp hwl with ⟨rfl, rfl⟩
      rfl
    | cons b r =>
      have step : noAdjPair sep (a :: b :: r) = ((!(a == sep && b == sep)) &&
          noAdjPair sep (b :: r)) := rfl
      rw [List.cons_append, hwl, step, ha]
      simp only [Bool.false_and, Bool.not_false, Bool.true_and]
      rw [← hwl, ih hw' l]

theorem noAdjPair_of_all (sep : Char) (w : List Char)
    (hw : ∀ c ∈ w, (c == sep) = false) : noAdjPair sep w = true := by
  have h := noAdjPair_append sep w hw []
  rw [List.append_nil] at h
  rw [h]
  rfl

theorem lastNotSep_append (sep : Char) (w : List Char) :
    ∀ l : List Char, l ≠ [] → lastNotSep sep (w ++ l) = lastNotSep sep l := by
  induction w with
  | nil => intro l _; rfl
  | cons a w ih =>
    intro l hl
    cases hwl : w ++ l with
    | nil =>
      rcases List.append_eq_nil.mp hwl with ⟨rfl, rfl⟩
      exact absurd rfl hl
    | cons b r =>
      have step : lastNotSep sep (a :: b :: r) = lastNotSep sep (b :: r) := rfl
      rw [List.cons_append, hwl, step, ← hwl, ih l hl]

theorem lastNotSep_of_all (sep : Char) (w : List Char)
    (hw : ∀ c ∈ w, (c == sep) = false) : lastNotSep sep w = true := by
  induction w with
  | nil => rfl
  | cons a w ih =>
    cases w with
    | nil =>
      show (a != sep) = true
      rw [bne, hw a (List.mem_cons_self a [])]
      rfl
    | cons b r =>
      have step : lastNotSep sep (a :: b :: r) = lastNotSep sep (b :: r) := rfl
      rw [step]
      exact ih (fun c hc => hw c (List.mem_cons_of_mem a hc))

theorem joinSep_ne_nil (sep : List Char) (ws : List (List Char)) (hne : ws ≠ [])
    (hw : ∀ w ∈ ws, w ≠ []) : joinSep sep ws ≠ [] := by
  cases ws with
  | nil => exact absurd rfl hne
  | cons w vs =>
    cases vs with
    | nil => exact hw w (List.mem_cons_self w [])
    | cons v vs =>
      rw [joinSep_cons_cons]
      have : w ≠ [] := hw w (List.mem_cons_self w _)
      cases w with
      | nil => exact absurd rfl this
      | cons a t => simp

theorem noStray_joinSep (sep : Char) :
    ∀ ws : List (List Char),
      (∀ w ∈ ws, w ≠ [] ∧ ∀ c ∈ w, (c == sep) = false) →
      noStray sep (joinSep [sep] ws) = true := by
  intro ws
  induction ws with
  | nil => intro _; rfl
  | cons w vs ih =>
    intro hws
    have hw := hws w (List.mem_cons_self w vs)
    cases vs with
    | nil =>
      show noStray sep w = true
      rw [noStray]
      have hh : headNotSep sep w = true := by
        cases w with
        | nil => exact absurd rfl hw.1
        | cons a t =>
          show (a != sep) = true
          rw [bne, hw.2 a (List.mem_cons_self a t)]
          rfl
      rw [hh, lastNotSep_of_all sep w hw.2, noAdjPair_of_all sep w hw.2]
      rfl
    | cons v vs =>
      have hJ := ih (fun x hx => hws x (List.mem_cons_of_mem w hx))
      have hJne : joinSep [sep] (v :: vs) ≠ [] :=
        joinSep_ne_nil [sep] (v :: vs) (List.cons_ne_nil v vs)
          (fun x hx => (hws x (List.mem_cons_of_mem w hx)).1)
      rw [noStray, Bool.and_eq_true, Bool.and_eq_true] at hJ
      rw [joinSep_cons_cons, noStray]
      have hout : w ++ [sep] ++ joinSep [sep] (v :: vs) =
          w ++ (sep :: joinSep [sep] (v :: vs)) := by
        simp
      rw [hout]
      have hh : headNotSep sep (w ++ (sep :: joinSep [sep] (v :: vs))) = true := by
        cases w with
        | nil => exact absurd rfl hw.1
        | cons a t =>
          show (a != sep) = true
          rw [bne, hw.2 a (List.mem_cons_self a t)]
          rfl
      have hlast : lastNotSep sep (w ++ (sep :: joinSep [sep] (v :: vs))) = true := by
        rw [lastNotSep_append sep w _ (List.cons_ne_nil _ _)]
        cases hJheq : joinSep [sep] (v :: vs) with
        | nil => exact absurd hJheq hJne
        | cons b r =>
          have step : lastNotSep sep (sep :: b :: r) = lastNotSep sep (b :: r) := rfl
          rw [step, ← hJheq]
          exact hJ.1.2
      have hadj : noAdjPair sep (w ++ (sep :: joinSep [sep] (v :: vs))) = true := by
        rw [noAdjPair_append sep w hw.2]
        cases hJheq : joinSep [sep] (v :: vs) with
        | nil => exact absurd hJheq hJne
        | cons b r =>
          have hb : (b == sep) = false := by
            have := hJ.1.1
            rw [hJheq] at this
            show (b == sep) = false
            cases hbs : b == sep with
            | false => rfl
            | true =>
              have : (b != sep) = true := this
              rw [bne, hbs] at this
              exact absurd this (by simp)
          have step : noAdjPair sep (sep :: b :: r) = ((!(sep == sep && b == sep)) &&
              noAdjPair sep (b :: r)) := rfl
          rw [step, hb]
          simp only [Bool.and_false, Bool.not_false, Bool.true_and]
          rw [← hJheq]
          exact hJ.2
      rw [hh, hlast, hadj]
      rfl

end Heck

/-! ## Claim theorems -/

namespace Heck

/-- C1: the input "hello world 21" renders to exactly the eight required
outputs, and the input "hello_world_21" renders identically to it under
every one of the eight styles. -/
theorem convert_hello_world_21 :
    (to_upper_camel_case "hello world 21".toList = "HelloWorld21".toList ∧
     to_lower_camel_case "hello world 21".toList = "helloWorld21".toList ∧
     to_snake_case "hello world 21".toList = "hello_world_21".toList ∧
     to_kebab_case "hello world 21".toList = "hello-world-21".toList ∧
     to_shouty_snake_case "hello world 21".toList = "HELLO_WORLD_21".toList ∧
     to_title_case "hello world 21".toList = "Hello World 21".toList ∧
     to_shouty_kebab_case "hello world 21".toList = "HELLO-WORLD-21".toList ∧
     to_train_case "hello world 21".toList = "Hello-World-21".toList) ∧
    (to_upper_camel_case "hello_world_21".toList = to_upper_camel_case "hello world 21".toList ∧
     to_lower_camel_case "hello_world_21".toList = to_lower_camel_case "hello world 21".toList ∧
     to_snake_case "hello_world_21".toList = to_snake_case "hello world 21".toList ∧
     to_kebab_case "hello_world_21".toList = to_kebab_case "hello world 21".toList ∧
     to_shouty_snake_case "hello_world_21".toList = to_shouty_snake_case "hello world 21".toList ∧
     to_title_case "hello_world_21".toList = to_title_case "hello world 21".toList ∧
     to_shouty_kebab_case "hello_world_21".toList = to_shouty_kebab_case "hello world 21".toList ∧
     to_train_case "hello_world_21".toList = to_train_case "hello world 21".toList) := by
  decide

/-- C2: the input "HelloWorld21" renders to exactly the eight required
outputs; World21 stays a single word because no separator precedes the
digits. -/
theorem convert_HelloWorld21 :
    to_upper_camel_case "HelloWorld21".toList = "HelloWorld21".toList ∧
    to_lower_camel_case "HelloWorld21".toList = "helloWorld21".toList ∧
    to_snake_case "HelloWorld21".toList = "hello_world21".toList ∧
    to_kebab_case "HelloWorld21".toList = "hello-world21".toList ∧
    to_shouty_snake_case "HelloWorld21".toList = "HELLO_WORLD21".toList ∧
    to_title_case "HelloWorld21".toList = "Hello World21".toList ∧
    to_shouty_kebab_case "HelloWorld21".toList = "HELLO-WORLD21".toList ∧
    to_train_case "HelloWorld21".toList = "Hello-World21".toList ∧
    segment "HelloWorld21".toList = ["Hello".toList, "World21".toList] := by
  decide

end Heck

namespace Heck

/-- C3: every filter evaluation on any input string returns Ok (the
conversions are total), including empty, pure-separator and pure-digit
strings, and the empty input renders to the empty string under every one of
the eight styles. -/
theorem filters_total_ok :
    (∀ (s : List Char) (ρ : Type) (r : ρ),
      (UpperCamelCaseFilter.evaluate (Liquid.Value.scalar (Liquid.Scalar.str s)) r).isOk = true ∧
      (LowerCamelCaseFilter.evaluate (Liquid.Value.scalar (Liquid.Scalar.str s)) r).isOk = true ∧
      (SnakeCaseFilter.evaluate (Liquid.Value.scalar (Liquid.Scalar.str s)) r).isOk = true ∧
      (KebabCaseFilter.evaluate (Liquid.Value.scalar (Liquid.Scalar.str s)) r).isOk = true ∧
      (ShoutySnakeCaseFilter.evaluate (Liquid.Value.scalar (Liquid.Scalar.str s)) r).isOk = true ∧
      (TitleCaseFilter.evaluate (Liquid.Value.scalar (Liquid.Scalar.str s)) r).isOk = true ∧
      (ShoutyKebabCaseFilter.evaluate (Liquid.Value.scalar (Liquid.Scalar.str s)) r).isOk = true ∧
      (TrainCaseFilter.evaluate (Liquid.Value.scalar (Liquid.Scalar.str s)) r).isOk = true) ∧
    (to_upper_camel_case [] = [] ∧ to_lower_camel_case [] = [] ∧
     to_snake_case [] = [] ∧ to_kebab_case [] = [] ∧
     to_shouty_snake_case [] = [] ∧ to_shouty_kebab_case [] = [] ∧
     to_title_case [] = [] ∧ to_train_case [] = []) := by
  exact ⟨fun s ρ r => ⟨rfl, rfl, rfl, rfl, rfl, rfl, rfl, rfl⟩,
    rfl, rfl, rfl, rfl, rfl, rfl, rfl, rfl⟩

/-- C4: applying the same style twice is idempotent for the six styles with
a non-empty separator. -/
theorem separator_styles_idempotent (s : List Char) :
    to_snake_case (to_snake_case s) = to_snake_case s ∧
    to_kebab_case (to_kebab_case s) = to_kebab_case s ∧
    to_shouty_snake_case (to_shouty_snake_case s) = to_shouty_snake_case s ∧
    to_shouty_kebab_case (to_shouty_kebab_case s) = to_shouty_kebab_case s ∧
    to_title_case (to_title_case s) = to_title_case s ∧
    to_train_case (to_train_case s) = to_train_case s := by
  refine ⟨?_, ?_, ?_, ?_, ?_, ?_⟩
  · exact convert_idem snakeStyle '_' rfl (by decide) rfl (Or.inl rfl) s
  · exact convert_idem kebabStyle '-' rfl (by decide) rfl (Or.inl rfl) s
  · exact convert_idem shoutySnakeStyle '_' rfl (by decide) rfl (Or.inr (Or.inl rfl)) s
  · exact convert_idem shoutyKebabStyle '-' rfl (by decide) rfl (Or.inr (Or.inl rfl)) s
  · exact convert_idem titleStyle ' ' rfl (by decide) rfl (Or.inr (Or.inr rfl)) s
  · exact convert_idem trainStyle '-' rfl (by decide) rfl (Or.inr (Or.inr rfl)) s

/-- C5: a word that does not start a separator-delimited run (so its first
character is neither at input start nor immediately preceded by a
separator) always begins with an uppercase letter, hence never with a
digit. -/
theorem digit_never_starts_midrun_word (s : List Char) (r w : List Char)
    (hr : r ∈ sepRuns s) (hw : w ∈ (camelSplit r).tail) :
    ∃ c t, w = c :: t ∧ c.isUpper = true ∧ c.isDigit = false := by
  cases r with
  | nil => simp [camelSplit] at hw
  | cons a rest =>
    rw [camelSplit] at hw
    rcases camelGo_tail_upper rest [a] a w hw with ⟨c, t, rfl, hup⟩
    exact ⟨c, t, rfl, hup, not_isDigit_of_isUpper hup⟩

/-- C5 witness: in "helloWorld21" the second word of the single run starts
with the non-digit uppercase W. -/
theorem digit_never_starts_midrun_word_witness :
    ∃ c t, ("World21".toList : List Char) = c :: t ∧ c.isUpper = true ∧ c.isDigit = false :=
  digit_never_starts_midrun_word "helloWorld21".toList "helloWorld21".toList "World21".toList
    (by decide) (by decide)

/-- C6: in a run of two or more uppercase letters followed by a lowercase
letter, a boundary is placed exactly before the last uppercase letter (and
never between two uppercase letters that are followed by another
uppercase); concretely, "XMLParser" segments into XML and Parser, giving
snake case xml_parser and upper camel case XmlParser. -/
theorem acronym_boundary (a b c : Char) (ha : a.isUpper = true) (hb : b.isUpper = true) :
    ((c.isLower = true → camelBoundary a b (some c) = true) ∧
      (c.isUpper = true → camelBoundary a b (some c) = false)) ∧
    segment "XMLParser".toList = ["XML".toList, "Parser".toList] ∧
    to_snake_case "XMLParser".toList = "xml_parser".toList ∧
    to_upper_camel_case "XMLParser".toList = "XmlParser".toList := by
  refine ⟨⟨?_, ?_⟩, by decide, by decide, by decide⟩
  · intro hc
    rw [camelBoundary.eq_def, hb, ha]
    simp [hc]
  · intro hc
    rw [camelBoundary.eq_def, not_isLower_of_isUpper ha]
    show (b.isUpper && (false || (a.isUpper && c.isLower))) = false
    rw [not_isLower_of_isUpper hc]
    simp

/-- C6 witness: instantiated at the uppercase pair X, P with lowercase
lookahead a. -/
theorem acronym_boundary_witness :
    ((('a' : Char).isLower = true → camelBoundary 'X' 'P' (some 'a') = true) ∧
      (('a' : Char).isUpper = true → camelBoundary 'X' 'P' (some 'a') = false)) ∧
    segment "XMLParser".toList = ["XML".toList, "Parser".toList] ∧
    to_snake_case "XMLParser".toList = "xml_parser".toList ∧
    to_upper_camel_case "XMLParser".toList = "XmlParser".toList :=
  acronym_boundary 'X' 'P' 'a' (by decide) (by decide)

end Heck

namespace Heck

/-- C7: concatenating the words of the segmentation, with no separator and
no case change, yields exactly the alphanumeric characters of the input in
their original order: segmentation only discards separator characters. -/
theorem segment_preserves_alphanumerics (s : List Char) :
    (segment s).flatten = s.filter (fun c => !isSeparator c) ∧
    (segment s).flatten = s.filter Char.isAlphanum := by
  refine ⟨segment_flatten s, ?_⟩
  rw [segment_flatten s]
  refine List.filter_congr ?_
  intro c _
  rw [isSeparator, Bool.not_not]

theorem noStray_convert (st : StyleDescriptor) (sc : Char)
    (hsep : st.separator = [sc]) (hsc : isSeparator sc = true)
    (hfirst : st.first_word_case = none) (s : List Char) :
    noStray sc (render (segment s) st) = true := by
  rw [render_eq_joinSep st hfirst, hsep]
  refine noStray_joinSep sc _ ?_
  intro w hw
  rcases List.mem_map.mp hw with ⟨v, hv, rfl⟩
  have hvw := segment_words v hv
  have hvne : v ≠ [] := by
    rcases hvw.1 with ⟨c, t, rfl⟩
    exact List.cons_ne_nil c t
  refine ⟨applyCase_ne_nil _ hvne, ?_⟩
  intro c hc
  have hcs := applyCase_sepFree _ hvw.2 c hc
  cases hceq : c == sc with
  | false => rfl
  | true =>
    have hce : c = sc := eq_of_beq hceq
    rw [hce, hsc] at hcs
    exact absurd hcs (by simp)

/-- C8: for every input, the rendered output of each separator style never
starts with that style's separator, never ends with it, and never contains
two adjacent separator characters; the only separator occurrences are the
single ones inserted between consecutive words. -/
theorem render_no_stray_separators (s : List Char) :
    noStray '_' (to_snake_case s) = true ∧
    noStray '-' (to_kebab_case s) = true ∧
    noStray '_' (to_shouty_snake_case s) = true ∧
    noStray '-' (to_shouty_kebab_case s) = true ∧
    noStray ' ' (to_title_case s) = true ∧
    noStray '-' (to_train_case s) = true := by
  refine ⟨?_, ?_, ?_, ?_, ?_, ?_⟩
  · exact noStray_convert snakeStyle '_' rfl (by decide) rfl s
  · exact noStray_convert kebabStyle '-' rfl (by decide) rfl s
  · exact noStray_convert shoutySnakeStyle '_' rfl (by decide) rfl s
  · exact noStray_convert shoutyKebabStyle '-' rfl (by decide) rfl s
  · exact noStray_convert titleStyle ' ' rfl (by decide) rfl s
  · exact noStray_convert trainStyle '-' rfl (by decide) rfl s

/-- C9: every filter's evaluate ignores its runtime argument entirely: for
the same input value, any two runtime contexts (even of different types)
give the same result. -/
theorem evaluate_ignores_runtime (input : Liquid.Value) (ρ σ : Type) (r1 : ρ) (r2 : σ) :
    UpperCamelCaseFilter.evaluate input r1 = UpperCamelCaseFilter.evaluate input r2 ∧
    LowerCamelCaseFilter.evaluate input r1 = LowerCamelCaseFilter.evaluate input r2 ∧
    SnakeCaseFilter.evaluate input r1 = SnakeCaseFilter.evaluate input r2 ∧
    KebabCaseFilter.evaluate input r1 = KebabCaseFilter.evaluate input r2 ∧
    ShoutySnakeCaseFilter.evaluate input r1 = ShoutySnakeCaseFilter.evaluate input r2 ∧
    TitleCaseFilter.evaluate input r1 = TitleCaseFilter.evaluate input r2 ∧
    ShoutyKebabCaseFilter.evaluate input r1 = ShoutyKebabCaseFilter.evaluate input r2 ∧
    TrainCaseFilter.evaluate input r1 = TrainCaseFilter.evaluate input r2 :=
  ⟨rfl, rfl, rfl, rfl, rfl, rfl, rfl, rfl⟩

/-- C10: every filter accepts any Liquid value (nil, number, boolean or
string): it coerces the input with to_kstr, converts the resulting string,
and always returns Ok with a scalar string; the error branch is
unreachable. -/
theorem evaluate_coerces_and_succeeds (input : Liquid.Value) (ρ : Type) (r : ρ) :
    UpperCamelCaseFilter.evaluate input r =
      Except.ok (Liquid.Value.scalar (Liquid.Scalar.str
        (to_upper_camel_case (Liquid.to_kstr input)))) ∧
    LowerCamelCaseFilter.evaluate input r =
      Except.ok (Liquid.Value.scalar (Liquid.Scalar.str
        (to_lower_camel_case (Liquid.to_kstr input)))) ∧
    SnakeCaseFilter.evaluate input r =
      Except.ok (Liquid.Value.scalar (Liquid.Scalar.str
        (to_snake_case (Liquid.to_kstr input)))) ∧
    KebabCaseFilter.evaluate input r =
      Except.ok (Liquid.Value.scalar (Liquid.Scalar.str
        (to_kebab_case (Liquid.to_kstr input)))) ∧
    ShoutySnakeCaseFilter.evaluate input r =
      Except.ok (Liquid.Value.scalar (Liquid.Scalar.str
        (to_shouty_snake_case (Liquid.to_kstr input)))) ∧
    TitleCaseFilter.evaluate input r =
      Except.ok (Liquid.Value.scalar (Liquid.Scalar.str
        (to_title_case (Liquid.to_kstr input)))) ∧
    ShoutyKebabCaseFilter.evaluate input r =
      Except.ok (Liquid.Value.scalar (Liquid.Scalar.str
        (to_shouty_kebab_case (Liquid.to_kstr input)))) ∧
    TrainCaseFilter.evaluate input r =
      Except.ok (Liquid.Value.scalar (Liquid.Scalar.str
        (to_train_case (Liquid.to_kstr input)))) :=
  ⟨rfl, rfl, rfl, rfl, rfl, rfl, rfl, rfl⟩

end Heck
